import Mathlib

/-!
Verification development for a burst-coalescing message-to-email forwarder
(`bot.py`).  The source program is a single-threaded asyncio application; we
embed it as a discrete-event state machine over rational time plus pure
functions for the text-processing and pipeline logic.

Modelling conventions, in correspondence with the source:

* `Msg` carries exactly the fields of a Telegram message that the handler and
  pipeline read: `chat_id`, `media_group_id`, the text/caption pairs and the
  two service-message markers.
* The global dictionary `media_groups : Dict[(chat_id, str(media_group_id)),
  {"messages": [...], "flush_task": Task}]` becomes an association list from
  `(Int × String)` keys to `Accum`.  A live `flush_task` created by
  `asyncio.create_task(flush_media_group(...))` that sleeps
  `MEDIA_GROUP_FLUSH_DELAY_SEC` and then flushes is represented by its firing
  deadline (arrival time + quiet window); cancelling the old task and arming a
  new one is represented by overwriting the deadline.
* The reference execution model is the single-threaded event loop: at each
  arrival time `t`, every armed timer whose deadline is at or before `t` fires
  (earliest deadline first) before the arriving update is handled, and after
  the last update all remaining timers fire.  Pipeline invocations are logged
  in dispatch order in `invocations`.
-/

/-- One inbound Telegram message, restricted to the fields read by
`handle_incoming_post`, `extract_message_html_text` and the pipeline.
`new_chat_members` is `true` when the Python attribute is a non-empty list,
`left_chat_member` when the attribute is not `None`. -/
structure Msg where
  chat_id : Int
  media_group_id : Option String
  text : Option String
  caption : Option String
  text_html : Option String
  caption_html : Option String
  new_chat_members : Bool
  left_chat_member : Bool
deriving DecidableEq, Repr

/-- Key of the `media_groups` dictionary: `(chat_id, str(media_group_id))`. -/
abbrev MediaGroupKey := Int × String

/-- One value of the `media_groups` dictionary: the accumulated messages plus
the armed flush task, represented by the instant at which its
`asyncio.sleep(MEDIA_GROUP_FLUSH_DELAY_SEC)` completes. -/
structure Accum where
  messages : List Msg
  deadline : ℚ
deriving DecidableEq, Repr

/-- Global coalescer state: the `media_groups` dictionary (insertion-ordered
association list, as a Python dict) and the log of pipeline invocations
(`process_messages_and_send_email` calls), each recorded as its message list,
in dispatch order. -/
structure CoState where
  media_groups : List (MediaGroupKey × Accum)
  invocations : List (List Msg)
deriving DecidableEq, Repr

/-- `media_groups.get(key)`: first (and only) binding of `key`. -/
def lookupGroup (k : MediaGroupKey) : List (MediaGroupKey × Accum) → Option Accum
  | [] => none
  | p :: rest => if p.1 = k then some p.2 else lookupGroup k rest

/-- `media_groups.pop(key, None)`: remove the binding of `key`. -/
def eraseGroup (k : MediaGroupKey) (gs : List (MediaGroupKey × Accum)) :
    List (MediaGroupKey × Accum) :=
  gs.filter (fun p => ¬ p.1 = k)

/-- The body of `flush_media_group` after its sleep completes: look the key up,
return doing nothing when it is gone, otherwise remove the accumulator from
`media_groups` (removal happens in the source before the dispatch, which is why
the two are one atomic step here) and dispatch its message list to the
pipeline. -/
def flushMediaGroup (k : MediaGroupKey) (s : CoState) : CoState :=
  match lookupGroup k s.media_groups with
  | none => s
  | some acc =>
      { media_groups := eraseGroup k s.media_groups,
        invocations := s.invocations ++ [acc.messages] }

/-- The grouped branch of `handle_incoming_post`:
`media_groups.setdefault(key, ...)`, append the message, cancel the previous
flush task and arm a new one with deadline `t + Q`.  New keys are appended at
the end, as Python dict insertion does. -/
def observe (Q t : ℚ) (k : MediaGroupKey) (m : Msg) :
    List (MediaGroupKey × Accum) → List (MediaGroupKey × Accum)
  | [] => [(k, ⟨[m], t + Q⟩)]
  | p :: rest =>
      if p.1 = k then (p.1, ⟨p.2.messages ++ [m], t + Q⟩) :: rest
      else p :: observe Q t k m rest

/-- `handle_incoming_post` for one update arriving at time `t`.  `none` models
an update with no effective message. -/
def handleUpdate (Q t : ℚ) (u : Option Msg) (s : CoState) : CoState :=
  match u with
  | none => s
  | some m =>
      if m.new_chat_members || m.left_chat_member then s
      else
        match m.media_group_id with
        | some gid =>
            { s with media_groups := observe Q t (m.chat_id, gid) m s.media_groups }
        | none => { s with invocations := s.invocations ++ [[m]] }

/-- The key under which `handle_incoming_post` files a message, when any:
`none` for service messages and ungrouped messages. -/
def eventKey (m : Msg) : Option MediaGroupKey :=
  if m.new_chat_members || m.left_chat_member then none
  else m.media_group_id.map (fun gid => (m.chat_id, gid))

/-- Among the armed timers with deadline at or before `t`, the one that fires
first: earliest deadline, ties to the earlier-armed entry. -/
def pickDue (t : ℚ) : List (MediaGroupKey × Accum) → Option (MediaGroupKey × Accum)
  | [] => none
  | p :: rest =>
      match pickDue t rest with
      | none => if p.2.deadline ≤ t then some p else none
      | some q =>
          if p.2.deadline ≤ t ∧ p.2.deadline ≤ q.2.deadline then some p else some q

/-- Fire every timer due at or before `t`, earliest first; the fuel is the
number of armed timers, and each firing removes one. -/
def fireDueAux : Nat → ℚ → CoState → CoState
  | 0, _, s => s
  | n + 1, t, s =>
      match pickDue t s.media_groups with
      | none => s
      | some p => fireDueAux n t (flushMediaGroup p.1 s)

/-- All timers due at or before `t` fire before the update arriving at `t` is
handled. -/
def fireDue (t : ℚ) (s : CoState) : CoState :=
  fireDueAux s.media_groups.length t s

/-- The earliest-armed timer overall (used after the last update, when every
remaining timer eventually fires). -/
def pickMin : List (MediaGroupKey × Accum) → Option (MediaGroupKey × Accum)
  | [] => none
  | p :: rest =>
      match pickMin rest with
      | none => some p
      | some q => if p.2.deadline ≤ q.2.deadline then some p else some q

/-- Fire every remaining timer, earliest deadline first. -/
def fireAllAux : Nat → CoState → CoState
  | 0, s => s
  | n + 1, s =>
      match pickMin s.media_groups with
      | none => s
      | some p => fireAllAux n (flushMediaGroup p.1 s)

/-- Fire every remaining timer, earliest deadline first. -/
def fireAll (s : CoState) : CoState :=
  fireAllAux s.media_groups.length s

/-- A complete run of the event loop on a time-stamped update sequence with
quiet window `Q`: for each update, first fire the timers due by its arrival
time, then run `handle_incoming_post`; after the last update, fire all
remaining timers. -/
def runCoalescer (Q : ℚ) (updates : List (ℚ × Option Msg)) : CoState :=
  fireAll (updates.foldl (fun s u => handleUpdate Q u.1 u.2 (fireDue u.1 s)) ⟨[], []⟩)

/-- `MEDIA_GROUP_FLUSH_DELAY_SEC` default: 1.6 seconds. -/
def MEDIA_GROUP_FLUSH_DELAY_SEC : ℚ := 8 / 5

/-!
## Substring machinery

Python `str.startswith` / occurrence / `str.replace` are modelled on
`List Char`.  `preOf p l` / `sufOf u l` / `subOf q l` state that `p` is a
prefix, suffix, contiguous substring of `l`.
-/

/-- `p` is a prefix of `l`. -/
def preOf (p l : List Char) : Prop := ∃ t, p ++ t = l

/-- `u` is a suffix of `l`. -/
def sufOf (u l : List Char) : Prop := ∃ s, s ++ u = l

/-- `q` occurs contiguously inside `l`. -/
def subOf (q l : List Char) : Prop := ∃ s t, s ++ q ++ t = l

/-- Executable prefix test (Python `startswith`). -/
def preB : List Char → List Char → Bool
  | [], _ => true
  | _ :: _, [] => false
  | a :: p, b :: l => a = b && preB p l

/-- Executable suffix test. -/
def sufB (u : List Char) : List Char → Bool
  | [] => u = ([] : List Char)
  | b :: l => u = b :: l || sufB u l

/-- Executable substring test. -/
def subB (q : List Char) : List Char → Bool
  | [] => preB q []
  | b :: l => preB q (b :: l) || subB q l

theorem preOf_nil (p : List Char) : preOf p [] ↔ p = [] := by
  constructor
  · rintro ⟨t, h⟩
    rcases List.append_eq_nil.mp h with ⟨h1, _⟩
    exact h1
  · rintro rfl
    exact ⟨[], rfl⟩

theorem preOf_cons (a b : Char) (p l : List Char) :
    preOf (a :: p) (b :: l) ↔ a = b ∧ preOf p l := by
  constructor
  · rintro ⟨t, h⟩
    rw [List.cons_append, List.cons.injEq] at h
    exact ⟨h.1, t, h.2⟩
  · rintro ⟨rfl, t, ht⟩
    exact ⟨t, by rw [List.cons_append, ht]⟩

theorem preB_iff (p l : List Char) : preB p l = true ↔ preOf p l := by
  induction p generalizing l with
  | nil => simp [preB, preOf]
  | cons a p ih =>
      cases l with
      | nil => simp [preB, preOf_nil]
      | cons b l => simp [preB, preOf_cons, ih]

instance decPreOf (p l : List Char) : Decidable (preOf p l) :=
  decidable_of_iff _ (preB_iff p l)

theorem sufOf_cons (u : List Char) (b : Char) (l : List Char) :
    sufOf u (b :: l) ↔ u = b :: l ∨ sufOf u l := by
  constructor
  · rintro ⟨s, h⟩
    cases s with
    | nil => exact Or.inl h
    | cons c s =>
        rw [List.cons_append, List.cons.injEq] at h
        exact Or.inr ⟨s, h.2⟩
  · rintro (rfl | ⟨s, rfl⟩)
    · exact ⟨[], rfl⟩
    · exact ⟨b :: s, rfl⟩

theorem sufB_iff (u l : List Char) : sufB u l = true ↔ sufOf u l := by
  induction l with
  | nil =>
      simp only [sufB, decide_eq_true_eq]
      constructor
      · rintro rfl; exact ⟨[], rfl⟩
      · rintro ⟨s, h⟩
        rcases List.append_eq_nil.mp h with ⟨_, h2⟩
        exact h2
  | cons b l ih => simp [sufB, sufOf_cons, ih]

instance decSufOf (u l : List Char) : Decidable (sufOf u l) :=
  decidable_of_iff _ (sufB_iff u l)

theorem subOf_nil (q : List Char) : subOf q [] ↔ q = [] := by
  constructor
  · rintro ⟨s, t, h⟩
    rcases List.append_eq_nil.mp h with ⟨h1, _⟩
    rcases List.append_eq_nil.mp h1 with ⟨_, h3⟩
    exact h3
  · rintro rfl
    exact ⟨[], [], rfl⟩

theorem subOf_cons (q : List Char) (b : Char) (l : List Char) :
    subOf q (b :: l) ↔ preOf q (b :: l) ∨ subOf q l := by
  constructor
  · rintro ⟨s, t, h⟩
    cases s with
    | nil => exact Or.inl ⟨t, by simpa using h⟩
    | cons c s =>
        rw [List.cons_append, List.cons_append, List.cons.injEq] at h
        exact Or.inr ⟨s, t, h.2⟩
  · rintro (⟨t, ht⟩ | ⟨s, t, rfl⟩)
    · exact ⟨[], t, by simpa using ht⟩
    · exact ⟨b :: s, t, rfl⟩

theorem subB_iff (q l : List Char) : subB q l = true ↔ subOf q l := by
  induction l with
  | nil =>
      simp only [subB, preB_iff, subOf_nil, preOf_nil]
  | cons b l ih => simp [subB, subOf_cons, ih, preB_iff]

instance decSubOf (q l : List Char) : Decidable (subOf q l) :=
  decidable_of_iff _ (subB_iff q l)

/-!
## Text normalization (`telegram_html_to_required`)

`replaceAll p r s` is Python `s.replace(p, r)`: scan left to right; at each
position, if the pattern starts here, emit the replacement and skip the
pattern, else emit one character and move on.
-/

/-- Python `s.replace(p, r)` on character lists (left-to-right, non-overlapping
occurrences). -/
def replaceAll (p r : List Char) : List Char → List Char
  | [] => []
  | c :: cs =>
      if preB p (c :: cs) then r ++ replaceAll p r (cs.drop (p.length - 1))
      else c :: replaceAll p r cs
termination_by l => l.length
decreasing_by
· simp [List.length_drop]; omega
· simp

/-- `telegram_html_to_required`: empty in, empty out; otherwise replace
`<b>`/`</b>` with `<strong>`/`</strong>` and `<i>`/`</i>` with `<em>`/`</em>`,
in source order. -/
def telegram_html_to_required (html : String) : String :=
  if html = "" then ""
  else
    String.mk
      (replaceAll "</i>".data "</em>".data
        (replaceAll "<i>".data "<em>".data
          (replaceAll "</b>".data "</strong>".data
            (replaceAll "<b>".data "<strong>".data html.data))))

/-- Python truthiness of an optional string. -/
def truthy : Option String → Bool
  | none => false
  | some s => s ≠ ""

/-- `extract_message_html_text`: prefer `text_html` when `text` is truthy, else
`caption_html` when `caption` is truthy, normalize, strip. -/
def extract_message_html_text (m : Msg) : String :=
  let html :=
    if truthy m.text then (m.text_html.getD "")
    else if truthy m.caption then (m.caption_html.getD "")
    else ""
  (telegram_html_to_required html).trim

/-- Python `"<hr>".join`. -/
def joinHr : List String → String
  | [] => ""
  | [p] => p
  | p :: rest => p ++ "<hr>" ++ joinHr rest

/-- Lines 279–290 of the source: keep the non-empty extracted texts, wrap each
in a `<div>`, and join with the `<hr>` divider (empty string when no part is
non-empty). -/
def composeParts (parts : List String) : String :=
  joinHr (((parts.filter (fun p => p ≠ "")).map (fun p => "<div>" ++ p ++ "</div>")))

/-- The fixed placeholder substituted for an empty body. -/
def placeholderDiv : String := "<div>(без текста)</div>"

/-- `compose_html_document`: wrap the combined text (or the placeholder when it
is empty) in the fixed HTML template. -/
def compose_html_document (html_text : String) : String :=
  "<!doctype html>\n<html lang=\"ru\">\n<head>\n  <meta charset=\"utf-8\">\n  <meta name=\"viewport\" content=\"width=device-width, initial-scale=1\">\n  <title>Telegram Post</title>\n</head>\n<body>\n  <div style=\"font-family: Arial, sans-serif; font-size: 14px; line-height: 1.45;\">\n    "
    ++ (if html_text = "" then placeholderDiv else html_text)
    ++ "\n  </div>\n</body>\n</html>\n"

/-!
## Pipeline (`process_messages_and_send_email`)

The filesystem is the list of existing paths.  `download_message_media` and the
SMTP send are the program's IO boundaries; they are injected as oracles: a
fetch result per message (filename/size pairs on success, the exception detail
on failure) and a send result.  User-visible `reply_text` calls are logged as
structured `Reply` values.
-/

/-- `WARN_SIZE_BYTES = 25 * 1024 * 1024`. -/
def WARN_SIZE_BYTES : Nat := 25 * 1024 * 1024

/-- A user-visible `reply_text` to the originating chat: the oversized-file
advisory (shown names, count of the unnamed remainder), the success
acknowledgment, or the failure acknowledgment with the exception detail. -/
inductive Reply where
  | advisory (names : List String) (more : Nat)
  | success
  | failure (detail : String)
deriving DecidableEq, Repr

/-- `p` names the staging directory itself or something strictly inside it. -/
def isUnder (dir q : String) : Prop := q = dir ∨ preOf (dir ++ "/").data q.data

instance decIsUnder (dir q : String) : Decidable (isUnder dir q) := by
  unfold isUnder
  infer_instance

/-- `shutil.rmtree(dir, ignore_errors=True)`: remove the directory and
everything under it; by construction a total function, so it cannot raise, and
removal of an absent tree is a no-op. -/
def rmtree (dir : String) (fs : List String) : List String :=
  fs.filter (fun q => decide (¬ isUnder dir q))

/-- Sequential fetch loop (step 2 of the pipeline): for each message in order,
materialize its attachments into the staging directory, accumulating
filename/size pairs in event order; the first failure aborts the loop carrying
the filesystem as it stands.  Abstracts `download_message_media`, whose failure
granularity is per message here. -/
def fetchAll (fetch : Msg → Except String (List (String × Nat))) (dir : String) :
    List Msg → List String → Except (String × List String) (List (String × Nat) × List String)
  | [], fs => .ok ([], fs)
  | m :: rest, fs =>
      match fetch m with
      | .error e => .error (e, fs)
      | .ok fls =>
          match fetchAll fetch dir rest (fs ++ fls.map (fun f => dir ++ "/" ++ f.1)) with
          | .error e => .error e
          | .ok (files, fs2) => .ok (fls ++ files, fs2)

/-- Result of one pipeline attempt: final filesystem, replies sent to the chat
in order, and how many times the delivery sink (`send_email_via_gmail`) was
invoked. -/
structure PipeState where
  fs : List String
  replies : List Reply
  delivered : Nat
deriving DecidableEq, Repr

/-- The `try` block of `process_messages_and_send_email` (after the staging
directory was created): compose the text, fetch all attachments, emit the
oversized-file advisory, invoke the delivery sink, remove the staging
directory, acknowledge success.  An error escapes with the state at the raise
point. -/
def pipelineBody (fetch : Msg → Except String (List (String × Nat)))
    (send : Except String Unit) (hasEff : Bool) (dir : String) (msgs : List Msg)
    (fs0 : List String) : Except (String × PipeState) PipeState :=
  match fetchAll fetch dir msgs (fs0 ++ [dir]) with
  | .error (e, fs1) => .error (e, ⟨fs1, [], 0⟩)
  | .ok (files, fs1) =>
      let bigFiles := files.filter (fun f => WARN_SIZE_BYTES < f.2)
      let replies1 :=
        if bigFiles ≠ [] ∧ hasEff = true then
          [Reply.advisory ((bigFiles.take 5).map (fun f => f.1))
            (if bigFiles.length ≤ 5 then 0 else bigFiles.length - 5)]
        else []
      match send with
      | .error e => .error (e, ⟨fs1, replies1, 1⟩)
      | .ok _ =>
          .ok ⟨rmtree dir fs1,
               replies1 ++ (if hasEff = true then [Reply.success] else []),
               1⟩

/-- `process_messages_and_send_email`: run the body; on any exception, remove
the staging directory (`ignore_errors=True`) and, when the update has an
effective message, send the failure acknowledgment carrying the exception
detail.  The exception is not re-raised: the result is a plain `PipeState`. -/
def process_messages_and_send_email (fetch : Msg → Except String (List (String × Nat)))
    (send : Except String Unit) (hasEff : Bool) (dir : String) (msgs : List Msg)
    (fs0 : List String) : PipeState :=
  match pipelineBody fetch send hasEff dir msgs fs0 with
  | .ok st => st
  | .error (e, st) =>
      ⟨rmtree dir st.fs,
       st.replies ++ (if hasEff = true then [Reply.failure e] else []),
       st.delivered⟩

/-!
## Burst bookkeeping for the debounce theorem
-/

/-- The bursts a single-key timed event sequence splits into: starting from an
open accumulator `acc` whose last arrival was at `t0`, a new event at `t`
joins the burst when `t < t0 + Q` and otherwise closes it. -/
def burstsAux (Q : ℚ) (acc : List Msg) (t0 : ℚ) : List (ℚ × Msg) → List (List Msg)
  | [] => [acc]
  | (t, m) :: rest =>
      if t0 + Q ≤ t then acc :: burstsAux Q [m] t rest
      else burstsAux Q (acc ++ [m]) t rest

/-- All arrivals stay strictly within the quiet window of their predecessor,
the first one counted from `t0`. -/
def closeFrom (Q : ℚ) : ℚ → List (ℚ × Msg) → Prop
  | _, [] => True
  | t0, (t, _) :: rest => t < t0 + Q ∧ closeFrom Q t rest

/-- Arrival time of the last event of `A`, or `t0` when `A` is empty. -/
def lastTime (t0 : ℚ) (A : List (ℚ × Msg)) : ℚ :=
  A.foldl (fun _ p => p.1) t0

/-!
## Sample values used by witnesses
-/

/-- A grouped, non-service message for chat `c` and media group `g`. -/
def msgGrouped (c : Int) (g : String) : Msg :=
  ⟨c, some g, some "hi", none, some "hi", none, false, false⟩

/-- An ungrouped, non-service message. -/
def msgPlain : Msg :=
  ⟨7, none, some "hello", none, some "hello", none, false, false⟩

/-- A chat-membership service message. -/
def msgService : Msg :=
  ⟨7, none, none, none, none, none, true, false⟩

/-!
## Coalescer lemmas
-/

theorem lookup_erase (k : MediaGroupKey) (gs : List (MediaGroupKey × Accum)) :
    lookupGroup k (eraseGroup k gs) = none := by
  induction gs with
  | nil => rfl
  | cons p rest ih =>
      by_cases h : p.1 = k
      · simpa [eraseGroup, List.filter, h] using ih
      · simpa [eraseGroup, List.filter, h, lookupGroup] using ih

/-- C2: a timer fire for an absent key is a no-op; a fire for a present key
removes the accumulator and dispatches its messages exactly once; firing twice
equals firing once, so no accumulator instance is ever dispatched twice. -/
theorem flush_at_most_once (k : MediaGroupKey) (s : CoState) :
    (lookupGroup k s.media_groups = none → flushMediaGroup k s = s) ∧
    (∀ acc, lookupGroup k s.media_groups = some acc →
      lookupGroup k (flushMediaGroup k s).media_groups = none ∧
      (flushMediaGroup k s).invocations = s.invocations ++ [acc.messages]) ∧
    flushMediaGroup k (flushMediaGroup k s) = flushMediaGroup k s := by
  refine ⟨?_, ?_, ?_⟩
  · intro h
    simp [flushMediaGroup, h]
  · intro acc h
    simp [flushMediaGroup, h, lookup_erase]
  · cases hl : lookupGroup k s.media_groups with
    | none => simp [flushMediaGroup, hl]
    | some acc =>
        have h2 : flushMediaGroup k s =
            ⟨eraseGroup k s.media_groups, s.invocations ++ [acc.messages]⟩ := by
          simp [flushMediaGroup, hl]
        rw [h2]
        simp [flushMediaGroup, lookup_erase]

/-- C2 witness at a concrete one-entry state. -/
theorem flush_at_most_once_witness :
    flushMediaGroup (2, "x") ⟨[((1, "g"), ⟨[msgGrouped 1 "g"], 2⟩)], []⟩ =
      ⟨[((1, "g"), ⟨[msgGrouped 1 "g"], 2⟩)], []⟩ ∧
    lookupGroup (1, "g")
      (flushMediaGroup (1, "g")
        ⟨[((1, "g"), ⟨[msgGrouped 1 "g"], 2⟩)], []⟩).media_groups = none ∧
    (flushMediaGroup (1, "g")
      ⟨[((1, "g"), ⟨[msgGrouped 1 "g"], 2⟩)], []⟩).invocations =
      [] ++ [[msgGrouped 1 "g"]] :=
  ⟨(flush_at_most_once (2, "x") ⟨[((1, "g"), ⟨[msgGrouped 1 "g"], 2⟩)], []⟩).1
      (by decide),
   (flush_at_most_once (1, "g") ⟨[((1, "g"), ⟨[msgGrouped 1 "g"], 2⟩)], []⟩).2.1
      ⟨[msgGrouped 1 "g"], 2⟩ (by decide)⟩

/-- C5: an ungrouped non-service message never touches the `media_groups`
mapping and immediately produces exactly one pipeline invocation holding
exactly that message. -/
theorem ungrouped_bypass (Q t : ℚ) (m : Msg) (s : CoState)
    (h1 : m.new_chat_members = false) (h2 : m.left_chat_member = false)
    (h3 : m.media_group_id = none) :
    handleUpdate Q t (some m) s = { s with invocations := s.invocations ++ [[m]] } := by
  simp [handleUpdate, h1, h2, h3]

/-- C5 witness at a concrete ungrouped message. -/
theorem ungrouped_bypass_witness :
    handleUpdate 2 0 (some msgPlain) ⟨[], []⟩ = ⟨[], [[msgPlain]]⟩ :=
  ungrouped_bypass 2 0 msgPlain ⟨[], []⟩ rfl rfl rfl

/-- C10: an update with no effective message, and a chat-membership service
message, leave the coalescer state untouched: no invocation, no mapping
change. -/
theorem service_and_empty_ignored (Q t : ℚ) (s : CoState) :
    handleUpdate Q t none s = s ∧
    ∀ m : Msg, (m.new_chat_members = true ∨ m.left_chat_member = true) →
      handleUpdate Q t (some m) s = s := by
  constructor
  · rfl
  · intro m hm
    rcases hm with h | h <;> simp [handleUpdate, h]

/-- C10 witness at a concrete service message. -/
theorem service_and_empty_ignored_witness :
    handleUpdate 2 0 none ⟨[], []⟩ = ⟨[], []⟩ ∧
    handleUpdate 2 0 (some msgService) ⟨[], []⟩ = ⟨[], []⟩ :=
  ⟨(service_and_empty_ignored 2 0 ⟨[], []⟩).1,
   (service_and_empty_ignored 2 0 ⟨[], []⟩).2 msgService (Or.inl rfl)⟩
/-!
## C7: compose behavior
-/

theorem joinHr_cons_cons (p q : String) (rest : List String) :
    joinHr (p :: q :: rest) = p ++ "<hr>" ++ joinHr (q :: rest) := by
  rfl

theorem data_append (a b : String) : (a ++ b).data = a.data ++ b.data :=
  String.data_append a b

set_option maxRecDepth 40000 in
/-- C7: composing no parts or only empty parts yields the placeholder-bearing
document; composing `["a", "b"]` yields a document holding `a` then `b`
separated by the divider; and the divider is inserted only when more than one
part is non-empty. -/
theorem compose_behavior :
    compose_html_document (composeParts []) = compose_html_document (composeParts ["", ""]) ∧
    subOf placeholderDiv.data (compose_html_document (composeParts [])).data ∧
    subOf "<div>a</div><hr><div>b</div>".data
      (compose_html_document (composeParts ["a", "b"])).data ∧
    (∀ parts : List String, (parts.filter (fun p => p ≠ "")).length ≤ 1 →
      composeParts parts = "" ∨
        ∃ p ∈ parts, composeParts parts = "<div>" ++ p ++ "</div>") ∧
    (∀ parts : List String, 2 ≤ (parts.filter (fun p => p ≠ "")).length →
      subOf "<hr>".data (composeParts parts).data) := by
  refine ⟨by decide, by decide, by decide, ?_, ?_⟩
  · intro parts hlen
    cases hf : parts.filter (fun p => p ≠ "") with
    | nil =>
        left
        unfold composeParts
        rw [hf]
        rfl
    | cons p rest =>
        cases rest with
        | nil =>
            right
            refine ⟨p, ?_, ?_⟩
            · exact List.mem_of_mem_filter (hf ▸ List.mem_cons_self p [])
            · unfold composeParts
              rw [hf]
              rfl
        | cons q rest2 =>
            rw [hf] at hlen
            simp at hlen
  · intro parts hlen
    cases hf : parts.filter (fun p => p ≠ "") with
    | nil => rw [hf] at hlen; simp at hlen
    | cons p rest =>
        cases rest with
        | nil => rw [hf] at hlen; simp at hlen
        | cons q rest2 =>
            unfold composeParts
            rw [hf]
            refine ⟨("<div>" ++ p ++ "</div>").data,
                    (joinHr (("<div>" ++ q ++ "</div>") :: rest2.map (fun r => "<div>" ++ r ++ "</div>"))).data, ?_⟩
            simp [joinHr_cons_cons, data_append]

/-- C7 witness: the divider-only-when-multiple clauses at concrete inputs. -/
theorem compose_behavior_witness :
    (composeParts ["x"] = "" ∨
      ∃ p ∈ ["x"], composeParts ["x"] = "<div>" ++ p ++ "</div>") ∧
    subOf "<hr>".data (composeParts ["a", "b"]).data :=
  ⟨compose_behavior.2.2.2.1 ["x"] (by decide),
   compose_behavior.2.2.2.2 ["a", "b"] (by decide)⟩
/-!
## C3, C4, C6: pipeline cleanup, failure containment, oversized advisory
-/

/-- Recognizer for the failure acknowledgment. -/
def isFailureB : Reply → Bool
  | Reply.failure _ => true
  | _ => false

/-- Recognizer for the oversized-file advisory. -/
def isAdvisoryB : Reply → Bool
  | Reply.advisory _ _ => true
  | _ => false

theorem mem_rmtree (dir q : String) (fs : List String) (h : q ∈ rmtree dir fs) :
    ¬ isUnder dir q := by
  unfold rmtree at h
  have h2 := (List.mem_filter.mp h).2
  simpa using h2

theorem body_ok_fs (fetch : Msg → Except String (List (String × Nat)))
    (send : Except String Unit) (hasEff : Bool) (dir : String) (msgs : List Msg)
    (fs0 : List String) (st : PipeState)
    (h : pipelineBody fetch send hasEff dir msgs fs0 = .ok st) :
    ∃ f1, st.fs = rmtree dir f1 := by
  unfold pipelineBody at h
  cases hf : fetchAll fetch dir msgs (fs0 ++ [dir]) with
  | error e =>
      rw [hf] at h
      cases h
  | ok pr =>
      rw [hf] at h
      cases hs : send with
      | error e =>
          rw [hs] at h
          simp at h
      | ok u =>
          rw [hs] at h
          simp only [Except.ok.injEq] at h
          exact ⟨pr.2, by rw [← h]⟩

theorem body_error_replies (fetch : Msg → Except String (List (String × Nat)))
    (send : Except String Unit) (hasEff : Bool) (dir : String) (msgs : List Msg)
    (fs0 : List String) (e : String) (st : PipeState)
    (h : pipelineBody fetch send hasEff dir msgs fs0 = .error (e, st)) :
    st.replies.countP isFailureB = 0 := by
  unfold pipelineBody at h
  cases hf : fetchAll fetch dir msgs (fs0 ++ [dir]) with
  | error pr =>
      rw [hf] at h
      simp only [Except.error.injEq, Prod.mk.injEq] at h
      rw [← h.2]
      rfl
  | ok pr =>
      rw [hf] at h
      cases hs : send with
      | ok u =>
          rw [hs] at h
          cases h
      | error e2 =>
          rw [hs] at h
          simp only [Except.error.injEq, Prod.mk.injEq] at h
          rw [← h.2]
          by_cases hb : pr.1.filter (fun f => WARN_SIZE_BYTES < f.2) ≠ [] ∧ hasEff = true
          · rw [if_pos hb]
            rfl
          · rw [if_neg hb]
            rfl

/-- C3: after any pipeline attempt, success or failure, nothing at or under
the staging directory remains on the filesystem; and `rmtree` (modelling
`shutil.rmtree(..., ignore_errors=True)`, a total function here) is a no-op on
a filesystem holding nothing under the directory. -/
theorem cleanup_guaranteed :
    (∀ (fetch : Msg → Except String (List (String × Nat))) (send : Except String Unit)
        (hasEff : Bool) (dir : String) (msgs : List Msg) (fs0 : List String) (q : String),
      q ∈ (process_messages_and_send_email fetch send hasEff dir msgs fs0).fs →
      ¬ isUnder dir q) ∧
    (∀ (dir : String) (fs : List String), (∀ q ∈ fs, ¬ isUnder dir q) →
      rmtree dir fs = fs) := by
  constructor
  · intro fetch send hasEff dir msgs fs0 q hq
    unfold process_messages_and_send_email at hq
    cases hb : pipelineBody fetch send hasEff dir msgs fs0 with
    | ok st =>
        rw [hb] at hq
        obtain ⟨f1, hfs⟩ := body_ok_fs fetch send hasEff dir msgs fs0 st hb
        rw [hfs] at hq
        exact mem_rmtree dir q f1 hq
    | error pr =>
        rw [hb] at hq
        exact mem_rmtree dir q pr.2.fs hq
  · intro dir fs h
    unfold rmtree
    rw [List.filter_eq_self]
    intro q hq
    simpa using h q hq

/-- C3 witness: a successful concrete run keeps an unrelated path and holds
nothing under the staging directory; `rmtree` of an absent tree is the
identity. -/
theorem cleanup_guaranteed_witness :
    ¬ isUnder "/tmp/op" "/keep" ∧ rmtree "/d" ["/x"] = ["/x"] :=
  ⟨cleanup_guaranteed.1 (fun _ => Except.ok [("a.bin", 7)]) (Except.ok ()) true
      "/tmp/op" [msgPlain] ["/keep"] "/keep" (by decide),
   cleanup_guaranteed.2 "/d" ["/x"] (by decide)⟩

/-- C4: when any step of the `try` block fails, the attempt ends with the
staging directory removed, the replies so far followed by exactly one failure
acknowledgment carrying the error detail, and a plain (non-raising) result. -/
theorem failure_containment (fetch : Msg → Except String (List (String × Nat)))
    (send : Except String Unit) (dir : String) (msgs : List Msg) (fs0 : List String)
    (e : String) (st : PipeState)
    (hb : pipelineBody fetch send true dir msgs fs0 = .error (e, st)) :
    process_messages_and_send_email fetch send true dir msgs fs0 =
      ⟨rmtree dir st.fs, st.replies ++ [Reply.failure e], st.delivered⟩ ∧
    (process_messages_and_send_email fetch send true dir msgs fs0).replies.countP
      isFailureB = 1 ∧
    ∀ q ∈ (process_messages_and_send_email fetch send true dir msgs fs0).fs,
      ¬ isUnder dir q := by
  have h1 : process_messages_and_send_email fetch send true dir msgs fs0 =
      ⟨rmtree dir st.fs, st.replies ++ [Reply.failure e], st.delivered⟩ := by
    unfold process_messages_and_send_email
    rw [hb]
    rfl
  refine ⟨h1, ?_, ?_⟩
  · rw [h1]
    simp [List.countP_append, body_error_replies fetch send true dir msgs fs0 e st hb,
      isFailureB, List.countP_cons]
  · intro q hq
    rw [h1] at hq
    exact mem_rmtree dir q st.fs hq

/-- C4 witness: a concrete run whose attachment fetch raises. -/
theorem failure_containment_witness :
    process_messages_and_send_email (fun _ => Except.error "boom") (Except.ok ()) true
        "/tmp/op" [msgPlain] [] =
      ⟨rmtree "/tmp/op" (⟨["/tmp/op"], [], 0⟩ : PipeState).fs,
        (⟨["/tmp/op"], [], 0⟩ : PipeState).replies ++ [Reply.failure "boom"],
        (⟨["/tmp/op"], [], 0⟩ : PipeState).delivered⟩ ∧
    (process_messages_and_send_email (fun _ => Except.error "boom") (Except.ok ()) true
        "/tmp/op" [msgPlain] []).replies.countP isFailureB = 1 ∧
    ∀ q ∈ (process_messages_and_send_email (fun _ => Except.error "boom") (Except.ok ()) true
        "/tmp/op" [msgPlain] []).fs, ¬ isUnder "/tmp/op" q :=
  failure_containment (fun _ => Except.error "boom") (Except.ok ()) "/tmp/op"
    [msgPlain] [] "boom" ⟨["/tmp/op"], [], 0⟩ rfl
/-- C6: when some fetched attachment strictly exceeds `WARN_SIZE_BYTES`, the
attempt emits exactly one advisory, as its first reply, naming the first five
offending files plus the count of the remainder, and still invokes the
delivery sink; with no oversized attachment, no advisory is emitted. -/
theorem oversized_advisory (fetch : Msg → Except String (List (String × Nat)))
    (send : Except String Unit) (dir : String) (msgs : List Msg) (fs0 : List String)
    (files : List (String × Nat)) (fs1 : List String)
    (hf : fetchAll fetch dir msgs (fs0 ++ [dir]) = .ok (files, fs1)) :
    (files.filter (fun f => WARN_SIZE_BYTES < f.2) ≠ [] →
      (process_messages_and_send_email fetch send true dir msgs fs0).replies.head? =
        some (Reply.advisory
          (((files.filter (fun f => WARN_SIZE_BYTES < f.2)).take 5).map (fun f => f.1))
          (if (files.filter (fun f => WARN_SIZE_BYTES < f.2)).length ≤ 5 then 0
           else (files.filter (fun f => WARN_SIZE_BYTES < f.2)).length - 5)) ∧
      (process_messages_and_send_email fetch send true dir msgs fs0).replies.countP
        isAdvisoryB = 1 ∧
      (process_messages_and_send_email fetch send true dir msgs fs0).delivered = 1) ∧
    (files.filter (fun f => WARN_SIZE_BYTES < f.2) = [] →
      (process_messages_and_send_email fetch send true dir msgs fs0).replies.countP
        isAdvisoryB = 0) := by
  cases hs : send with
  | ok u =>
      constructor
      · intro hb
        refine ⟨?_, ?_, ?_⟩ <;>
          simp [process_messages_and_send_email, pipelineBody, hf, hs, hb, isAdvisoryB,
            List.countP_cons]
      · intro hb
        simp [process_messages_and_send_email, pipelineBody, hf, hs, hb, isAdvisoryB,
          List.countP_cons]
  | error e2 =>
      constructor
      · intro hb
        refine ⟨?_, ?_, ?_⟩ <;>
          simp [process_messages_and_send_email, pipelineBody, hf, hs, hb, isAdvisoryB,
            List.countP_cons]
      · intro hb
        simp [process_messages_and_send_email, pipelineBody, hf, hs, hb, isAdvisoryB,
          List.countP_cons]

/-- C6 witness: one 30 MiB attachment produces one advisory naming it, and the
sink is still invoked. -/
theorem oversized_advisory_witness :
    (process_messages_and_send_email (fun _ => Except.ok [("big.bin", 31457280)])
        (Except.ok ()) true "/tmp/op" [msgPlain] []).replies.head? =
      some (Reply.advisory
        (((([("big.bin", 31457280)] : List (String × Nat)).filter
            (fun f => WARN_SIZE_BYTES < f.2)).take 5).map (fun f => f.1))
        (if (([("big.bin", 31457280)] : List (String × Nat)).filter
            (fun f => WARN_SIZE_BYTES < f.2)).length ≤ 5 then 0
         else (([("big.bin", 31457280)] : List (String × Nat)).filter
            (fun f => WARN_SIZE_BYTES < f.2)).length - 5)) ∧
    (process_messages_and_send_email (fun _ => Except.ok [("big.bin", 31457280)])
        (Except.ok ()) true "/tmp/op" [msgPlain] []).replies.countP isAdvisoryB = 1 ∧
    (process_messages_and_send_email (fun _ => Except.ok [("big.bin", 31457280)])
        (Except.ok ()) true "/tmp/op" [msgPlain] []).delivered = 1 :=
  (oversized_advisory (fun _ => Except.ok [("big.bin", 31457280)])
    (Except.ok ()) "/tmp/op" [msgPlain] [] [("big.bin", 31457280)]
    ["/tmp/op", "/tmp/op/big.bin"] rfl).1 (by decide)
/-!
## C1: debounce
-/

/-- One event-loop step: fire the timers due by the arrival time, then handle
the update. -/
def stepUpd (Q : ℚ) (s : CoState) (u : ℚ × Option Msg) : CoState :=
  handleUpdate Q u.1 u.2 (fireDue u.1 s)

theorem runCoalescer_eq (Q : ℚ) (updates : List (ℚ × Option Msg)) :
    runCoalescer Q updates = fireAll (updates.foldl (stepUpd Q) ⟨[], []⟩) :=
  rfl

theorem burstsAux_cons (Q : ℚ) (acc : List Msg) (t0 t : ℚ) (m : Msg)
    (rest : List (ℚ × Msg)) :
    burstsAux Q acc t0 ((t, m) :: rest) =
      if t0 + Q ≤ t then acc :: burstsAux Q [m] t rest
      else burstsAux Q (acc ++ [m]) t rest :=
  rfl

/-- Executable form of `closeFrom`. -/
def closeFromB (Q : ℚ) : ℚ → List (ℚ × Msg) → Bool
  | _, [] => true
  | t0, (t, _) :: rest => decide (t < t0 + Q) && closeFromB Q t rest

theorem closeFromB_iff (Q : ℚ) :
    ∀ (t0 : ℚ) (l : List (ℚ × Msg)), closeFromB Q t0 l = true ↔ closeFrom Q t0 l := by
  intro t0 l
  induction l generalizing t0 with
  | nil => simp [closeFromB, closeFrom]
  | cons p rest ih =>
      obtain ⟨t, m⟩ := p
      simp [closeFromB, closeFrom, ih t]

instance decCloseFrom (Q t0 : ℚ) (l : List (ℚ × Msg)) : Decidable (closeFrom Q t0 l) :=
  decidable_of_iff _ (closeFromB_iff Q t0 l)

theorem fireDue_single_due (t : ℚ) (k : MediaGroupKey) (a : Accum)
    (inv : List (List Msg)) (h : a.deadline ≤ t) :
    fireDue t ⟨[(k, a)], inv⟩ = ⟨[], inv ++ [a.messages]⟩ := by
  simp [fireDue, fireDueAux, pickDue, h, flushMediaGroup, lookupGroup, eraseGroup]

theorem fireDue_single_not (t : ℚ) (k : MediaGroupKey) (a : Accum)
    (inv : List (List Msg)) (h : ¬ a.deadline ≤ t) :
    fireDue t ⟨[(k, a)], inv⟩ = ⟨[(k, a)], inv⟩ := by
  simp [fireDue, fireDueAux, pickDue, h]

theorem fireAll_single (k : MediaGroupKey) (a : Accum) (inv : List (List Msg)) :
    fireAll ⟨[(k, a)], inv⟩ = ⟨[], inv ++ [a.messages]⟩ := by
  simp [fireAll, fireAllAux, pickMin, flushMediaGroup, lookupGroup, eraseGroup]

theorem handle_grouped (Q t : ℚ) (m : Msg) (k : MediaGroupKey) (s : CoState)
    (h : eventKey m = some k) :
    handleUpdate Q t (some m) s =
      { s with media_groups := observe Q t k m s.media_groups } := by
  unfold eventKey at h
  cases hb : (m.new_chat_members || m.left_chat_member) with
  | true =>
      rw [hb] at h
      simp at h
  | false =>
      rw [hb] at h
      simp only [Bool.false_eq_true, if_false] at h
      cases hg : m.media_group_id with
      | none => rw [hg] at h; simp at h
      | some gid =>
          rw [hg] at h
          simp only [Option.map_some', Option.some.injEq] at h
          subst h
          unfold handleUpdate
          simp [hb, hg]

theorem singleKeyFold (Q : ℚ) (k : MediaGroupKey) :
    ∀ (rest : List (ℚ × Msg)) (msgs : List Msg) (t0 : ℚ) (inv : List (List Msg)),
      (∀ p ∈ rest, eventKey p.2 = some k) →
      fireAll ((rest.map (fun p => (p.1, some p.2))).foldl (stepUpd Q)
          ⟨[(k, ⟨msgs, t0 + Q⟩)], inv⟩) =
        ⟨[], inv ++ burstsAux Q msgs t0 rest⟩ := by
  intro rest
  induction rest with
  | nil =>
      intro msgs t0 inv _
      simp [burstsAux, fireAll_single]
  | cons p rest ih =>
      intro msgs t0 inv hk
      obtain ⟨t, m⟩ := p
      have hkm : eventKey m = some k := hk (t, m) (List.mem_cons_self _ _)
      have hkr : ∀ q ∈ rest, eventKey q.2 = some k :=
        fun q hq => hk q (List.mem_cons_of_mem _ hq)
      simp only [List.map_cons, List.foldl_cons]
      by_cases hd : t0 + Q ≤ t
      · have h1 : stepUpd Q ⟨[(k, ⟨msgs, t0 + Q⟩)], inv⟩ (t, some m) =
            ⟨[(k, ⟨[m], t + Q⟩)], inv ++ [msgs]⟩ := by
          unfold stepUpd
          rw [fireDue_single_due t k ⟨msgs, t0 + Q⟩ inv hd,
            handle_grouped Q t m k _ hkm]
          rfl
        rw [h1, ih [m] t (inv ++ [msgs]) hkr]
        have h2 : burstsAux Q msgs t0 ((t, m) :: rest) =
            msgs :: burstsAux Q [m] t rest := by
          rw [burstsAux_cons, if_pos hd]
        rw [h2]
        simp [List.append_assoc]
      · have h1 : stepUpd Q ⟨[(k, ⟨msgs, t0 + Q⟩)], inv⟩ (t, some m) =
            ⟨[(k, ⟨msgs ++ [m], t + Q⟩)], inv⟩ := by
          unfold stepUpd
          rw [fireDue_single_not t k ⟨msgs, t0 + Q⟩ inv hd,
            handle_grouped Q t m k _ hkm]
          simp [observe]
        rw [h1, ih (msgs ++ [m]) t inv hkr]
        have h2 : burstsAux Q msgs t0 ((t, m) :: rest) =
            burstsAux Q (msgs ++ [m]) t rest := by
          rw [burstsAux_cons, if_neg hd]
        rw [h2]

theorem burstsAux_close (Q : ℚ) :
    ∀ (rest : List (ℚ × Msg)) (msgs : List Msg) (t0 : ℚ),
      closeFrom Q t0 rest →
      burstsAux Q msgs t0 rest = [msgs ++ rest.map (fun p => p.2)] := by
  intro rest
  induction rest with
  | nil => intro msgs t0 _; simp [burstsAux]
  | cons p rest ih =>
      intro msgs t0 h
      obtain ⟨t, m⟩ := p
      obtain ⟨h1, h2⟩ := h
      have h3 : burstsAux Q msgs t0 ((t, m) :: rest) =
          burstsAux Q (msgs ++ [m]) t rest := by
        rw [burstsAux_cons, if_neg (not_le.mpr h1)]
      rw [h3, ih (msgs ++ [m]) t h2]
      simp

theorem burstsAux_split (Q tg : ℚ) (mg : Msg) (B : List (ℚ × Msg)) :
    ∀ (A : List (ℚ × Msg)) (msgs : List Msg) (t0 : ℚ),
      closeFrom Q t0 A → lastTime t0 A + Q ≤ tg → closeFrom Q tg B →
      burstsAux Q msgs t0 (A ++ (tg, mg) :: B) =
        [msgs ++ A.map (fun p => p.2), mg :: B.map (fun p => p.2)] := by
  intro A
  induction A with
  | nil =>
      intro msgs t0 _ hgap hB
      have hgap2 : t0 + Q ≤ tg := hgap
      have h3 : burstsAux Q msgs t0 ((tg, mg) :: B) =
          msgs :: burstsAux Q [mg] tg B := by
        rw [burstsAux_cons, if_pos hgap2]
      rw [List.nil_append, h3, burstsAux_close Q B [mg] tg hB]
      simp
  | cons p A ih =>
      intro msgs t0 hc hgap hB
      obtain ⟨t, m⟩ := p
      obtain ⟨h1, h2⟩ := hc
      have hgap2 : lastTime t A + Q ≤ tg := hgap
      have h3 : burstsAux Q msgs t0 (((t, m) :: A) ++ (tg, mg) :: B) =
          burstsAux Q (msgs ++ [m]) t (A ++ (tg, mg) :: B) := by
        rw [List.cons_append, burstsAux_cons, if_neg (not_le.mpr h1)]
      rw [h3, ih (msgs ++ [m]) t h2 hgap2 hB]
      simp

/-- C1: for two or more events sharing one key and each arriving strictly
within the quiet window of its predecessor, exactly one pipeline invocation
occurs, holding all events in arrival order; and when exactly one gap of at
least the quiet window separates the sequence, exactly two invocations occur,
split at that gap. -/
theorem debounce_coalescing (Q : ℚ) (k : MediaGroupKey) :
    (∀ (t0 : ℚ) (m0 : Msg) (rest : List (ℚ × Msg)),
      eventKey m0 = some k → (∀ p ∈ rest, eventKey p.2 = some k) →
      1 ≤ rest.length → closeFrom Q t0 rest →
      (runCoalescer Q (((t0, m0) :: rest).map (fun p => (p.1, some p.2)))).invocations =
        [m0 :: rest.map (fun p => p.2)]) ∧
    (∀ (t0 : ℚ) (m0 : Msg) (A : List (ℚ × Msg)) (tg : ℚ) (mg : Msg) (B : List (ℚ × Msg)),
      eventKey m0 = some k → (∀ p ∈ A, eventKey p.2 = some k) →
      eventKey mg = some k → (∀ p ∈ B, eventKey p.2 = some k) →
      closeFrom Q t0 A → lastTime t0 A + Q ≤ tg → closeFrom Q tg B →
      (runCoalescer Q
          (((t0, m0) :: (A ++ (tg, mg) :: B)).map (fun p => (p.1, some p.2)))).invocations =
        [m0 :: A.map (fun p => p.2), mg :: B.map (fun p => p.2)]) := by
  have hfirst : ∀ (t0 : ℚ) (m0 : Msg), eventKey m0 = some k →
      stepUpd Q ⟨[], []⟩ (t0, some m0) = ⟨[(k, ⟨[m0], t0 + Q⟩)], []⟩ := by
    intro t0 m0 h0
    unfold stepUpd
    have : fireDue t0 (⟨[], []⟩ : CoState) = ⟨[], []⟩ := rfl
    rw [this, handle_grouped Q t0 m0 k _ h0]
    rfl
  constructor
  · intro t0 m0 rest h0 hk _ hclose
    rw [runCoalescer_eq]
    simp only [List.map_cons, List.foldl_cons]
    rw [hfirst t0 m0 h0, singleKeyFold Q k rest [m0] t0 [] hk,
      burstsAux_close Q rest [m0] t0 hclose]
    simp
  · intro t0 m0 A tg mg B h0 hA hg hB hcA hgap hcB
    rw [runCoalescer_eq]
    simp only [List.map_cons, List.foldl_cons]
    have hk : ∀ p ∈ A ++ (tg, mg) :: B, eventKey p.2 = some k := by
      intro p hp
      rcases List.mem_append.mp hp with hpa | hpb
      · exact hA p hpa
      · rcases List.mem_cons.mp hpb with rfl | hpb2
        · exact hg
        · exact hB p hpb2
    rw [hfirst t0 m0 h0, singleKeyFold Q k (A ++ (tg, mg) :: B) [m0] t0 [] hk,
      burstsAux_split Q tg mg B A [m0] t0 hcA hgap hcB]
    simp

/-- C1 witness: two events 1 s apart with a 2 s window coalesce into one
invocation; with the second event 5 s later the run splits into two. -/
theorem debounce_coalescing_witness :
    (runCoalescer 2 ((((0 : ℚ), msgGrouped 1 "g") :: [((1 : ℚ), msgGrouped 1 "g")]).map
        (fun p => (p.1, some p.2)))).invocations =
      [msgGrouped 1 "g" :: [((1 : ℚ), msgGrouped 1 "g")].map (fun p => p.2)] ∧
    (runCoalescer 2 ((((0 : ℚ), msgGrouped 1 "g") ::
        (([] : List (ℚ × Msg)) ++ ((5 : ℚ), msgGrouped 1 "g") :: ([] : List (ℚ × Msg)))).map
        (fun p => (p.1, some p.2)))).invocations =
      [msgGrouped 1 "g" :: ([] : List (ℚ × Msg)).map (fun p => p.2),
       msgGrouped 1 "g" :: ([] : List (ℚ × Msg)).map (fun p => p.2)] :=
  ⟨(debounce_coalescing 2 (1, "g")).1 0 (msgGrouped 1 "g") [((1 : ℚ), msgGrouped 1 "g")]
      (by decide) (by decide) (by decide) (by norm_num [closeFrom]),
   (debounce_coalescing 2 (1, "g")).2 0 (msgGrouped 1 "g") [] 5 (msgGrouped 1 "g") []
      (by decide) (by decide) (by decide) (by decide) (by norm_num [closeFrom])
      (by norm_num [lastTime]) (by norm_num [closeFrom])⟩
/-!
## C9: key scope
-/

/-- A dispatched invocation is sound: it is a single ungrouped message, or all
its messages share one coalescer key. -/
def invocOk (l : List Msg) : Prop :=
  (∃ m, l = [m]) ∨ ∃ k, ∀ m ∈ l, eventKey m = some k

/-- Coalescer-state invariant: every accumulator holds only messages filed
under its own key, and every past invocation is sound. -/
def stateOk (s : CoState) : Prop :=
  (∀ p ∈ s.media_groups, ∀ m ∈ p.2.messages, eventKey m = some p.1) ∧
  (∀ l ∈ s.invocations, invocOk l)

theorem lookup_mem (k : MediaGroupKey) (gs : List (MediaGroupKey × Accum)) (a : Accum)
    (h : lookupGroup k gs = some a) : (k, a) ∈ gs := by
  induction gs with
  | nil => cases h
  | cons p rest ih =>
      obtain ⟨pk, pa⟩ := p
      unfold lookupGroup at h
      by_cases hp : pk = k
      · rw [if_pos hp] at h
        injection h with h2
        rw [← hp, ← h2]
        exact List.mem_cons_self (pk, pa) rest
      · rw [if_neg hp] at h
        exact List.mem_cons_of_mem (pk, pa) (ih h)

theorem stateOk_flush (k : MediaGroupKey) (s : CoState) (h : stateOk s) :
    stateOk (flushMediaGroup k s) := by
  unfold flushMediaGroup
  cases hl : lookupGroup k s.media_groups with
  | none => exact h
  | some acc =>
      constructor
      · intro p hp
        exact h.1 p (List.mem_of_mem_filter hp)
      · intro l hl2
        rcases List.mem_append.mp hl2 with hold | hnew
        · exact h.2 l hold
        · rw [List.mem_singleton.mp hnew]
          exact Or.inr ⟨k, h.1 (k, acc) (lookup_mem k s.media_groups acc hl)⟩

theorem stateOk_fireDueAux (n : Nat) (t : ℚ) (s : CoState) (h : stateOk s) :
    stateOk (fireDueAux n t s) := by
  induction n generalizing s with
  | zero => exact h
  | succ n ih =>
      unfold fireDueAux
      cases pickDue t s.media_groups with
      | none => exact h
      | some p => exact ih (flushMediaGroup p.1 s) (stateOk_flush p.1 s h)

theorem stateOk_fireAllAux (n : Nat) (s : CoState) (h : stateOk s) :
    stateOk (fireAllAux n s) := by
  induction n generalizing s with
  | zero => exact h
  | succ n ih =>
      unfold fireAllAux
      cases pickMin s.media_groups with
      | none => exact h
      | some p => exact ih (flushMediaGroup p.1 s) (stateOk_flush p.1 s h)

theorem stateOk_observe (Q t : ℚ) (k : MediaGroupKey) (m : Msg)
    (gs : List (MediaGroupKey × Accum))
    (hgs : ∀ p ∈ gs, ∀ x ∈ p.2.messages, eventKey x = some p.1)
    (hm : eventKey m = some k) :
    ∀ p ∈ observe Q t k m gs, ∀ x ∈ p.2.messages, eventKey x = some p.1 := by
  induction gs with
  | nil =>
      intro p hp x hx
      rw [List.mem_singleton.mp hp] at hx ⊢
      rw [List.mem_singleton.mp hx]
      exact hm
  | cons q rest ih =>
      intro p hp x hx
      unfold observe at hp
      by_cases hq : q.1 = k
      · rw [if_pos hq] at hp
        rcases List.mem_cons.mp hp with rfl | hp2
        · rcases List.mem_append.mp hx with hx1 | hx2
          · exact hgs q (List.mem_cons_self q rest) x hx1
          · rw [List.mem_singleton.mp hx2, hq]
            exact hm
        · exact hgs p (List.mem_cons_of_mem q hp2) x hx
      · rw [if_neg hq] at hp
        rcases List.mem_cons.mp hp with rfl | hp2
        · exact hgs p (List.mem_cons_self p rest) x hx
        · exact ih (fun r hr => hgs r (List.mem_cons_of_mem q hr)) p hp2 x hx

theorem stateOk_handle (Q t : ℚ) (u : Option Msg) (s : CoState) (h : stateOk s) :
    stateOk (handleUpdate Q t u s) := by
  cases u with
  | none => exact h
  | some m =>
      unfold handleUpdate
      cases hb : (m.new_chat_members || m.left_chat_member) with
      | true => simpa [hb] using h
      | false =>
          cases hg : m.media_group_id with
          | none =>
              simp only [hb, Bool.false_eq_true, if_false, hg]
              constructor
              · exact h.1
              · intro l hl
                rcases List.mem_append.mp hl with hold | hnew
                · exact h.2 l hold
                · rw [List.mem_singleton.mp hnew]
                  exact Or.inl ⟨m, rfl⟩
          | some gid =>
              simp only [hb, Bool.false_eq_true, if_false, hg]
              have hm : eventKey m = some (m.chat_id, gid) := by
                unfold eventKey
                rw [hb, hg]
                simp
              exact ⟨stateOk_observe Q t (m.chat_id, gid) m s.media_groups h.1 hm, h.2⟩

theorem stateOk_runCoalescer (Q : ℚ) (updates : List (ℚ × Option Msg)) :
    stateOk (runCoalescer Q updates) := by
  rw [runCoalescer_eq]
  have hfold : ∀ (l : List (ℚ × Option Msg)) (s : CoState), stateOk s →
      stateOk (l.foldl (stepUpd Q) s) := by
    intro l
    induction l with
    | nil => intro s hs; exact hs
    | cons u rest ih =>
        intro s hs
        exact ih (stepUpd Q s u)
          (stateOk_handle Q u.1 u.2 (fireDue u.1 s)
            (stateOk_fireDueAux s.media_groups.length u.1 s hs))
  exact stateOk_fireAllAux _ _
    (hfold updates ⟨[], []⟩ ⟨(by intro p hp; cases hp), (by intro l hl; cases hl)⟩)

theorem eventKey_fields (m : Msg) (k : MediaGroupKey) (h : eventKey m = some k) :
    k.1 = m.chat_id ∧ m.media_group_id = some k.2 := by
  unfold eventKey at h
  cases hb : (m.new_chat_members || m.left_chat_member) with
  | true => rw [hb] at h; simp at h
  | false =>
      rw [hb] at h
      simp only [Bool.false_eq_true, if_false] at h
      cases hg : m.media_group_id with
      | none => rw [hg] at h; simp at h
      | some gid =>
          rw [hg] at h
          simp only [Option.map_some', Option.some.injEq] at h
          subst h
          exact ⟨rfl, rfl⟩

/-- C9: the coalescer key is the pair (chat id, group id), so no pipeline
invocation ever mixes two chats or two group ids: messages dispatched together
always agree on both. -/
theorem key_scope (Q : ℚ) (updates : List (ℚ × Option Msg)) :
    (∀ l ∈ (runCoalescer Q updates).invocations, ∀ m1 ∈ l, ∀ m2 ∈ l,
      m1.chat_id = m2.chat_id ∧ m1.media_group_id = m2.media_group_id) ∧
    (∀ (m : Msg) (k : MediaGroupKey), eventKey m = some k →
      k.1 = m.chat_id ∧ m.media_group_id = some k.2) := by
  constructor
  · intro l hl m1 h1 m2 h2
    rcases (stateOk_runCoalescer Q updates).2 l hl with ⟨m, rfl⟩ | ⟨k, hk⟩
    · rw [List.mem_singleton.mp h1, List.mem_singleton.mp h2]
      exact ⟨rfl, rfl⟩
    · obtain ⟨ha1, hb1⟩ := eventKey_fields m1 k (hk m1 h1)
      obtain ⟨ha2, hb2⟩ := eventKey_fields m2 k (hk m2 h2)
      exact ⟨by rw [← ha1, ← ha2], by rw [hb1, hb2]⟩
  · exact fun m k h => eventKey_fields m k h

/-- C9 witness: a concrete one-event run and a concrete key computation. -/
theorem key_scope_witness :
    ((msgGrouped 1 "g").chat_id = (msgGrouped 1 "g").chat_id ∧
      (msgGrouped 1 "g").media_group_id = (msgGrouped 1 "g").media_group_id) ∧
    (((1 : Int), "g").1 = (msgGrouped 1 "g").chat_id ∧
      (msgGrouped 1 "g").media_group_id = some ((1 : Int), "g").2) :=
  ⟨(key_scope 2 [((0 : ℚ), some (msgGrouped 1 "g"))]).1 [msgGrouped 1 "g"] (by decide)
      (msgGrouped 1 "g") (by decide) (msgGrouped 1 "g") (by decide),
   (key_scope 2 []).2 (msgGrouped 1 "g") (1, "g") (by decide)⟩
/-!
## C8: idempotence of `telegram_html_to_required`

Supporting facts about occurrences and `replaceAll`, leading to: after the four
tag replacements, none of the four source patterns occurs, so a second pass is
the identity.
-/

theorem replaceAll_nil (p r : List Char) : replaceAll p r [] = [] := by
  simp [replaceAll]

theorem replaceAll_cons (p r : List Char) (c : Char) (cs : List Char) :
    replaceAll p r (c :: cs) =
      if preB p (c :: cs) then r ++ replaceAll p r (cs.drop (p.length - 1))
      else c :: replaceAll p r cs := by
  rw [replaceAll]

theorem sub_nil_any (l : List Char) : subOf [] l :=
  ⟨[], l, rfl⟩

theorem sub_cons_of_sub (q : List Char) (c : Char) (l : List Char) (h : subOf q l) :
    subOf q (c :: l) :=
  (subOf_cons q c l).mpr (Or.inr h)

theorem not_sub_of_cons (q : List Char) (c : Char) (l : List Char)
    (h : ¬ subOf q (c :: l)) : ¬ subOf q l :=
  fun h2 => h (sub_cons_of_sub q c l h2)

theorem sub_of_pre (q l : List Char) (h : preOf q l) : subOf q l := by
  obtain ⟨t, ht⟩ := h
  exact ⟨[], t, ht⟩

theorem sub_drop (q : List Char) (n : Nat) (l : List Char)
    (h : subOf q (l.drop n)) : subOf q l := by
  obtain ⟨s, t, hst⟩ := h
  refine ⟨l.take n ++ s, t, ?_⟩
  have hst2 : s ++ (q ++ t) = l.drop n := by
    rw [← List.append_assoc]
    exact hst
  rw [List.append_assoc, List.append_assoc, hst2, List.take_append_drop]

theorem preOf_of_cons (p : List Char) (c : Char) (l : List Char) (hne : p ≠ [])
    (h : preOf p (c :: l)) : p = c :: p.tail ∧ preOf p.tail l := by
  cases p with
  | nil => exact absurd rfl hne
  | cons a p2 =>
      obtain ⟨rfl, h2⟩ := (preOf_cons a c p2 l).mp h
      exact ⟨rfl, h2⟩

theorem pre_append_cases (B : List Char) :
    ∀ (A v : List Char), preOf v (A ++ B) →
      preOf v A ∨ ∃ w, v = A ++ w ∧ preOf w B := by
  intro A
  induction A with
  | nil => intro v h; exact Or.inr ⟨v, rfl, h⟩
  | cons a A ih =>
      intro v h
      cases v with
      | nil => exact Or.inl ⟨a :: A, rfl⟩
      | cons x v2 =>
          rw [List.cons_append] at h
          obtain ⟨rfl, h2⟩ := (preOf_cons x a v2 (A ++ B)).mp h
          rcases ih v2 h2 with h3 | ⟨w, rfl, hw⟩
          · exact Or.inl ((preOf_cons x x v2 A).mpr ⟨rfl, h3⟩)
          · exact Or.inr ⟨w, rfl, hw⟩

theorem pre_of_append_left (A B v : List Char) (h : preOf v (A ++ B))
    (hlen : v.length ≤ A.length) : preOf v A := by
  rcases pre_append_cases B A v h with h2 | ⟨w, rfl, _⟩
  · exact h2
  · rw [List.length_append] at hlen
    have hw : w = [] := List.eq_nil_of_length_eq_zero (by omega)
    subst hw
    exact ⟨[], by rw [List.append_nil, List.append_nil]⟩

theorem sub_append_cases (B : List Char) :
    ∀ (A q : List Char), subOf q (A ++ B) →
      subOf q A ∨ subOf q B ∨
        ∃ u v, q = u ++ v ∧ u ≠ [] ∧ v ≠ [] ∧ sufOf u A ∧ preOf v B := by
  intro A
  induction A with
  | nil => intro q h; exact Or.inr (Or.inl h)
  | cons a A ih =>
      intro q h
      rw [List.cons_append] at h
      rcases (subOf_cons q a (A ++ B)).mp h with hpre | hsub
      · cases q with
        | nil => exact Or.inl (sub_nil_any (a :: A))
        | cons x q2 =>
            obtain ⟨rfl, h2⟩ := (preOf_cons x a q2 (A ++ B)).mp hpre
            rcases pre_append_cases B A q2 h2 with h3 | ⟨w, rfl, hw⟩
            · exact Or.inl (sub_of_pre (x :: q2) (x :: A)
                ((preOf_cons x x q2 A).mpr ⟨rfl, h3⟩))
            · cases w with
              | nil =>
                  refine Or.inl (sub_of_pre _ _ ?_)
                  refine ⟨[], ?_⟩
                  simp
              | cons y w2 =>
                  refine Or.inr (Or.inr ⟨x :: A, y :: w2, ?_, ?_, ?_, ⟨[], rfl⟩, hw⟩)
                  · rw [List.cons_append]
                  · exact List.cons_ne_nil x A
                  · exact List.cons_ne_nil y w2
      · rcases ih q hsub with h3 | h3 | ⟨u, v, hq, hu, hv, ⟨s, hs⟩, hvB⟩
        · exact Or.inl (sub_cons_of_sub q a A h3)
        · exact Or.inr (Or.inl h3)
        · exact Or.inr (Or.inr ⟨u, v, hq, hu, hv, ⟨a :: s, by rw [← hs, List.cons_append]⟩, hvB⟩)
theorem pre_replaceAll (p r : List Char) :
    ∀ (s v : List Char), v.length ≤ r.length → preOf v (replaceAll p r s) →
      preOf v s ∨ ∃ w z, v = w ++ z ∧ z ≠ [] ∧ preOf z r := by
  intro s
  induction s using replaceAll.induct p r with
  | case1 =>
      intro v _ hv
      rw [replaceAll_nil] at hv
      obtain rfl := (preOf_nil v).mp hv
      exact Or.inl ⟨[], rfl⟩
  | case2 c cs hp ih =>
      intro v hlen hv
      rw [replaceAll_cons, if_pos hp] at hv
      have hvr : preOf v r := pre_of_append_left r _ v hv hlen
      cases v with
      | nil => exact Or.inl ⟨c :: cs, rfl⟩
      | cons x v2 =>
          exact Or.inr ⟨[], x :: v2, rfl, List.cons_ne_nil x v2, hvr⟩
  | case3 c cs hp ih =>
      intro v hlen hv
      rw [replaceAll_cons, if_neg hp] at hv
      cases v with
      | nil => exact Or.inl ⟨c :: cs, rfl⟩
      | cons x v2 =>
          obtain ⟨hxc, h2⟩ := (preOf_cons x c v2 _).mp hv
          have hlen2 : v2.length ≤ r.length := by
            simp only [List.length_cons] at hlen
            omega
          rcases ih v2 hlen2 h2 with h3 | ⟨w, z, hsp, hz, hzr⟩
          · exact Or.inl ((preOf_cons x c v2 cs).mpr ⟨hxc, h3⟩)
          · exact Or.inr ⟨x :: w, z, by rw [hsp, List.cons_append], hz, hzr⟩

theorem replaceAll_of_not_sub (p r : List Char) :
    ∀ s, ¬ subOf p s → replaceAll p r s = s := by
  intro s
  induction s using replaceAll.induct p r with
  | case1 => intro _; exact replaceAll_nil p r
  | case2 c cs hp ih =>
      intro h
      exact absurd (sub_of_pre p (c :: cs) ((preB_iff p (c :: cs)).mp hp)) h
  | case3 c cs hp ih =>
      intro h
      rw [replaceAll_cons, if_neg hp, ih (not_sub_of_cons p c cs h)]

theorem not_self_sub_replaceAll (p r : List Char) (hne : p ≠ [])
    (hlen : p.length ≤ r.length) (hpr : ¬ subOf p r)
    (hstart : ∀ i, i < p.length → 0 < i → ¬ sufOf (p.take i) r)
    (henter : ∀ i, i < p.length → 0 < i → ¬ preOf (p.drop i) r) :
    ∀ s, ¬ subOf p (replaceAll p r s) := by
  intro s
  induction s using replaceAll.induct p r with
  | case1 =>
      rw [replaceAll_nil]
      intro h
      exact hne ((subOf_nil p).mp h)
  | case2 c cs hp ih =>
      rw [replaceAll_cons, if_pos hp]
      intro h
      rcases sub_append_cases _ r p h with h1 | h1 | ⟨u, v, hquv, hu, hv, hur, hvR⟩
      · exact hpr h1
      · exact ih h1
      · have hiu : u = p.take u.length := by rw [hquv, List.take_left]
        have hlu : 0 < u.length := List.length_pos.mpr hu
        have hlv : 0 < v.length := List.length_pos.mpr hv
        have hlp : p.length = u.length + v.length := by rw [hquv, List.length_append]
        exact hstart u.length (by omega) hlu (by rw [← hiu]; exact hur)
  | case3 c cs hp ih =>
      rw [replaceAll_cons, if_neg hp]
      intro h
      rcases (subOf_cons p c _).mp h with hpre | hsub
      · obtain ⟨hpc, htl⟩ := preOf_of_cons p c _ hne hpre
        cases htt : p.tail with
        | nil =>
            apply hp
            rw [preB_iff]
            refine ⟨cs, ?_⟩
            rw [hpc, htt]
            rfl
        | cons y tl2 =>
            have hlen2 : p.tail.length ≤ r.length := by
              have h1 : p.tail.length = p.length - 1 := by rw [List.length_tail]
              omega
            rcases pre_replaceAll p r cs p.tail hlen2 htl with h2 | ⟨w, z, hsp, hz, hzr⟩
            · apply hp
              rw [preB_iff]
              obtain ⟨t, ht⟩ := h2
              refine ⟨t, ?_⟩
              rw [hpc, List.cons_append, ht]
            · have hpw : p = (c :: w) ++ z := by rw [hpc, hsp, List.cons_append]
              have hdrop : p.drop (c :: w).length = z := by rw [hpw, List.drop_left]
              have hlz : 0 < z.length := List.length_pos.mpr hz
              have hlp : p.length = (c :: w).length + z.length := by
                rw [hpw, List.length_append]
              have hi : (c :: w).length < p.length := by rw [hlp]; omega
              exact henter (c :: w).length hi (by simp) (by rw [hdrop]; exact hzr)
      · exact ih hsub

theorem not_sub_replaceAll_other (p r q : List Char) (hq : ¬ subOf q r)
    (hqlen : q.length ≤ r.length + 1)
    (hstart : ∀ i, i < q.length → 0 < i → ¬ sufOf (q.take i) r)
    (henter : ∀ i, i < q.length → 0 < i → ¬ preOf (q.drop i) r) :
    ∀ s, ¬ subOf q s → ¬ subOf q (replaceAll p r s) := by
  intro s
  induction s using replaceAll.induct p r with
  | case1 =>
      intro hs
      rw [replaceAll_nil]
      exact hs
  | case2 c cs hp ih =>
      intro hs
      rw [replaceAll_cons, if_pos hp]
      intro h
      have hs2 : ¬ subOf q (cs.drop (p.length - 1)) := fun hh =>
        hs (sub_cons_of_sub q c cs (sub_drop q _ cs hh))
      rcases sub_append_cases _ r q h with h1 | h1 | ⟨u, v, hquv, hu, hv, hur, hvR⟩
      · exact hq h1
      · exact ih hs2 h1
      · have hiu : u = q.take u.length := by rw [hquv, List.take_left]
        have hlu : 0 < u.length := List.length_pos.mpr hu
        have hlv : 0 < v.length := List.length_pos.mpr hv
        have hlq : q.length = u.length + v.length := by rw [hquv, List.length_append]
        exact hstart u.length (by omega) hlu (by rw [← hiu]; exact hur)
  | case3 c cs hp ih =>
      intro hs
      rw [replaceAll_cons, if_neg hp]
      intro h
      have hs3 : ¬ subOf q cs := not_sub_of_cons q c cs hs
      rcases (subOf_cons q c _).mp h with hpre | hsub
      · have hqne : q ≠ [] := by
          intro hq0
          exact hs (hq0 ▸ sub_nil_any (c :: cs))
        obtain ⟨hqc, htl⟩ := preOf_of_cons q c _ hqne hpre
        have hlen2 : q.tail.length ≤ r.length := by
          have h1 : q.tail.length = q.length - 1 := by rw [List.length_tail]
          omega
        rcases pre_replaceAll p r cs q.tail hlen2 htl with h2 | ⟨w, z, hsp, hz, hzr⟩
        · apply hs
          obtain ⟨t, ht⟩ := h2
          apply sub_of_pre
          refine ⟨t, ?_⟩
          rw [hqc, List.cons_append, ht]
        · have hqw : q = (c :: w) ++ z := by rw [hqc, hsp, List.cons_append]
          have hdrop : q.drop (c :: w).length = z := by rw [hqw, List.drop_left]
          have hlz : 0 < z.length := List.length_pos.mpr hz
          have hlq2 : q.length = (c :: w).length + z.length := by
            rw [hqw, List.length_append]
          have hi : (c :: w).length < q.length := by rw [hlq2]; omega
          exact henter (c :: w).length hi (by simp) (by rw [hdrop]; exact hzr)
      · exact ih hs3 hsub
/-- The four-replacement composition inside `telegram_html_to_required`, on
character lists. -/
def normChars (d : List Char) : List Char :=
  replaceAll "</i>".data "</em>".data
    (replaceAll "<i>".data "<em>".data
      (replaceAll "</b>".data "</strong>".data
        (replaceAll "<b>".data "<strong>".data d)))

theorem tel_eq (x : String) (hx : ¬ x = "") :
    telegram_html_to_required x = String.mk (normChars x.data) := by
  rw [telegram_html_to_required, if_neg hx]
  rfl

theorem norm_no_b (d : List Char) : ¬ subOf "<b>".data (normChars d) := by
  unfold normChars
  apply not_sub_replaceAll_other "</i>".data "</em>".data "<b>".data
    (by decide) (by decide) (by decide) (by decide)
  apply not_sub_replaceAll_other "<i>".data "<em>".data "<b>".data
    (by decide) (by decide) (by decide) (by decide)
  apply not_sub_replaceAll_other "</b>".data "</strong>".data "<b>".data
    (by decide) (by decide) (by decide) (by decide)
  exact not_self_sub_replaceAll "<b>".data "<strong>".data
    (by decide) (by decide) (by decide) (by decide) (by decide) d

theorem norm_no_bc (d : List Char) : ¬ subOf "</b>".data (normChars d) := by
  unfold normChars
  apply not_sub_replaceAll_other "</i>".data "</em>".data "</b>".data
    (by decide) (by decide) (by decide) (by decide)
  apply not_sub_replaceAll_other "<i>".data "<em>".data "</b>".data
    (by decide) (by decide) (by decide) (by decide)
  exact not_self_sub_replaceAll "</b>".data "</strong>".data
    (by decide) (by decide) (by decide) (by decide) (by decide) _

theorem norm_no_i (d : List Char) : ¬ subOf "<i>".data (normChars d) := by
  unfold normChars
  apply not_sub_replaceAll_other "</i>".data "</em>".data "<i>".data
    (by decide) (by decide) (by decide) (by decide)
  exact not_self_sub_replaceAll "<i>".data "<em>".data
    (by decide) (by decide) (by decide) (by decide) (by decide) _

theorem norm_no_ci (d : List Char) : ¬ subOf "</i>".data (normChars d) := by
  unfold normChars
  exact not_self_sub_replaceAll "</i>".data "</em>".data
    (by decide) (by decide) (by decide) (by decide) (by decide) _

theorem normChars_fixed (D : List Char)
    (h1 : ¬ subOf "<b>".data D) (h2 : ¬ subOf "</b>".data D)
    (h3 : ¬ subOf "<i>".data D) (h4 : ¬ subOf "</i>".data D) :
    normChars D = D := by
  unfold normChars
  rw [replaceAll_of_not_sub _ _ D h1, replaceAll_of_not_sub _ _ D h2,
    replaceAll_of_not_sub _ _ D h3, replaceAll_of_not_sub _ _ D h4]

theorem normChars_idem (d : List Char) : normChars (normChars d) = normChars d :=
  normChars_fixed (normChars d) (norm_no_b d) (norm_no_bc d) (norm_no_i d) (norm_no_ci d)

/-- C8: `telegram_html_to_required`, the pure total transform taking bold and
italic markers to strong emphasis and emphasis, is idempotent. -/
theorem normalize_idempotent (x : String) :
    telegram_html_to_required (telegram_html_to_required x) =
      telegram_html_to_required x := by
  by_cases hx : x = ""
  · subst hx
    rfl
  · rw [tel_eq x hx]
    by_cases hy : String.mk (normChars x.data) = ""
    · rw [hy]
      rfl
    · rw [tel_eq _ hy]
      show String.mk (normChars (normChars x.data)) = String.mk (normChars x.data)
      rw [normChars_idem]
